import Mathlib

/-!
Verification of the `ll::Grid` traversal engine of lapislazuli

A shallow embedding of `src/lib.cc`'s `ll::Grid` class.  The C++ class keeps
its grid as static members (`MAP`, `DONE`, `WIDTH`, `HEIGHT`); we model that
ambient state as an explicit `GridState` record threaded through every
operation.  A `Grid` value is, as in the source, just an `(x, y)` coordinate
pair of `uintptr_t`s; 64-bit unsigned wraparound is modelled with `% 2^64`.

The recursive `walk` is embedded with a fuel parameter (`walkF`), structurally
recursive so that all definitions compute; `Grid.walk` fixes the fuel at
`WIDTH * HEIGHT + 1`, and the stabilization theorems show any fuel beyond the
number of unvisited cells yields the same result, so `Grid.walk` is the
function computed by the C++ recursion.  Side-effecting callbacks are
embedded by recording the invocation traces: the second component of a walk
result lists the cells passed to `then` (the action), in invocation order,
and the third lists the cells passed to `cond`.
-/

namespace ll

/-- Modulus of `uintptr_t` on the 64-bit platforms the library targets. -/
def UPTR : Nat := 2 ^ 64

/-- A `Grid` cell: an immutable coordinate pair, `uintptr_t const x, y`. -/
structure Grid where
  x : Nat
  y : Nat
deriving DecidableEq, Repr

/-- The static members of class `Grid`: configured dimensions, the character
map `MAP[x][y]`, and the flat visited overlay `DONE` indexed by
`y * WIDTH + x`. -/
structure GridState where
  WIDTH : Nat
  HEIGHT : Nat
  MAP : Nat → Nat → Char
  DONE : Nat → Bool

/-- `Grid() : x(-1), y(-1)` — the always-invalid sentinel cell; `-1`
converted to `uintptr_t` wraps to `2^64 - 1`. -/
def Grid.sentinel : Grid := ⟨UPTR - 1, UPTR - 1⟩

/-- `Grid::dx`: translate by `d` along x, with unsigned wraparound. -/
def Grid.dx (g : Grid) (d : Int) : Grid :=
  ⟨(((g.x : Int) + d).emod (UPTR : Int)).toNat, g.y⟩

/-- `Grid::dy`: translate by `d` along y, with unsigned wraparound. -/
def Grid.dy (g : Grid) (d : Int) : Grid :=
  ⟨g.x, (((g.y : Int) + d).emod (UPTR : Int)).toNat⟩

/-- `Grid::valid`: `x >= 0 && x < WIDTH && y >= 0 && y < HEIGHT` (the
non-negativity tests are trivially true for unsigned values). -/
def Grid.valid (g : Grid) (st : GridState) : Bool :=
  decide (g.x < st.WIDTH) && decide (g.y < st.HEIGHT)

/-- `Grid::tile`: `MAP[x][y]`, unchecked. -/
def Grid.tile (g : Grid) (st : GridState) : Char :=
  st.MAP g.x g.y

/-- The flat index `y * WIDTH + x` used by `Grid::done`. -/
def Grid.index (g : Grid) (st : GridState) : Nat :=
  g.y * st.WIDTH + g.x

/-- `Grid::done` (read): `DONE[y * WIDTH + x]`. -/
def Grid.done (g : Grid) (st : GridState) : Bool :=
  st.DONE (g.index st)

/-- `this->done() = true`: set the visited flag of `g`. -/
def GridState.mark (st : GridState) (g : Grid) : GridState :=
  { st with DONE := fun i => if i = g.index st then true else st.DONE i }

/-- `Grid::refresh`: `DONE.assign(DONE.size(), false)`. -/
def GridState.refresh (st : GridState) : GridState :=
  { st with DONE := fun _ => false }

/-- `Grid::neighbor`: the cells `dy(1), dx(1), dx(-1), dy(-1)` — down,
right, left, up — keeping only the valid ones, in that order. -/
def Grid.neighbor (g : Grid) (st : GridState) : List Grid :=
  [g.dy 1, g.dx 1, g.dx (-1), g.dy (-1)].filter (fun c => c.valid st)

/-- Run a walk-step function `f` on each cell of a list in order, threading
the state and concatenating both invocation traces — the `for (auto g :
this->neighbor()) g.walk(cond, then);` loop, abstracted over the body. -/
def seqWalk (f : GridState → Grid → GridState × List Grid × List Grid) :
    GridState → List Grid → GridState × List Grid × List Grid
  | st, [] => (st, [], [])
  | st, g :: gs =>
    let r1 := f st g
    let r2 := seqWalk f r1.1 gs
    (r2.1, r1.2.1 ++ r2.2.1, r1.2.2 ++ r2.2.2)

/-- Fuelled embedding of `Grid::walk`.  The result is the updated state, the
list of cells on which the action `then` is invoked (in order), and the list
of cells on which `cond` is invoked (in order).  With fuel `0` the
computation is cut off; the stabilization theorems below show that the fuel
used by `Grid.walk` is never exhausted, so the cut-off branch is dead. -/
def walkF (cond : Grid → Bool) : Nat → GridState → Grid → GridState × List Grid × List Grid
  | 0, st, _ => (st, [], [])
  | fuel + 1, st, g =>
    if g.valid st = false then (st, [], [])
    else if g.done st = true then (st, [], [])
    else if cond g = false then (st, [], [g])
    else
      let st1 := st.mark g
      let r := seqWalk (fun s h => walkF cond fuel s h) st1 (g.neighbor st1)
      (r.1, r.2.1 ++ [g], g :: r.2.2)

/-- `Grid::walk`: the fuel `WIDTH * HEIGHT + 1` always exceeds the number of
unvisited cells, so this is the value computed by the C++ recursion. -/
def Grid.walk (g : Grid) (st : GridState) (cond : Grid → Bool) :
    GridState × List Grid × List Grid :=
  walkF cond (st.WIDTH * st.HEIGHT + 1) st g

/-- `Grid::conn_area`: walk from `g` with `cond` comparing tiles with the
start's tile and `then` incrementing a counter; returns the counter (the
number of action invocations) together with the updated state. -/
def Grid.conn_area (g : Grid) (st : GridState) : Nat × GridState :=
  let r := g.walk st (fun m => m.tile st == g.tile st)
  (r.2.1.length, r.1)

/-- The row-major cell enumeration `for y in rng(HEIGHT), for x in
rng(WIDTH)` shared by `init`, `output`, `next` and `stat`. -/
def cellsRM (W H : Nat) : List (Nat × Nat) :=
  (List.range H).flatMap fun y => (List.range W).map fun x => (x, y)

/-- `Grid::next`: scan row-major for the first cell holding `pat` whose
visited flag is clear; the sentinel signals not-found. -/
def GridState.next (st : GridState) (pat : Char) : Grid :=
  match (cellsRM st.WIDTH st.HEIGHT).find?
      (fun p => st.MAP p.1 p.2 == pat && !(Grid.mk p.1 p.2).done st) with
  | some p => Grid.mk p.1 p.2
  | none => Grid.sentinel

/-- `Grid::stat`: count the cells holding `pat`, visited or not. -/
def GridState.stat (st : GridState) (pat : Char) : Nat :=
  ((cellsRM st.WIDTH st.HEIGHT).map fun p => st.MAP p.1 p.2).count pat

/-- The whitespace class of `operator>>`'s default skipping (C locale). -/
def wsp (c : Char) : Bool :=
  c == ' ' || c == '\n' || c == '\t' || c == '\r' || c == '\x0b' || c == '\x0c'

/-- One `input >> MAP[x][y]` step: skip whitespace, then read one character
into the cell; at end of stream the read fails and the map is unchanged. -/
def initCell (acc : GridState × List Char) (xy : Nat × Nat) : GridState × List Char :=
  match acc.2.dropWhile wsp with
  | [] => (acc.1, [])
  | c :: rest =>
    ({ acc.1 with
        MAP := fun a b => if a = xy.1 ∧ b = xy.2 then c else acc.1.MAP a b },
      rest)

/-- `Grid::init`: read the grid row-major from the stream `s`. -/
def GridState.init (st : GridState) (s : List Char) : GridState × List Char :=
  (cellsRM st.WIDTH st.HEIGHT).foldl initCell (st, s)

/-- `Grid::output`: write the grid row-major, each row followed by a
newline. -/
def GridState.output (st : GridState) : List Char :=
  (List.range st.HEIGHT).flatMap fun y =>
    ((List.range st.WIDTH).map fun x => st.MAP x y) ++ ['\n']

/-- Number of valid cells whose visited flag is still clear — the measure
that shrinks at every non-base-case call of `walk`. -/
def unvis (st : GridState) : Nat :=
  (cellsRM st.WIDTH st.HEIGHT).countP fun p => !st.DONE (p.2 * st.WIDTH + p.1)

/-- Number of valid cells whose visited flag is set. -/
def visCount (st : GridState) : Nat :=
  (cellsRM st.WIDTH st.HEIGHT).countP fun p => st.DONE (p.2 * st.WIDTH + p.1)

/-- Number of unvisited valid cells holding the symbol `pat`. -/
def unvisPat (st : GridState) (pat : Char) : Nat :=
  (cellsRM st.WIDTH st.HEIGHT).countP fun p =>
    st.MAP p.1 p.2 == pat && !st.DONE (p.2 * st.WIDTH + p.1)

/-- A sequence of `walk` calls made within one traversal epoch, each with its
own condition and start cell; returns the final state and the concatenation
of all action-invocation traces. -/
def walkCalls : List ((Grid → Bool) × Grid) → GridState → GridState × List Grid
  | [], st => (st, [])
  | cg :: rest, st =>
    let r := cg.2.walk st cg.1
    let r2 := walkCalls rest r.1
    (r2.1, r.2.1 ++ r2.2)

/-- The component-enumeration loop of the spec: repeatedly `next pat`, and
while the result is valid add its `conn_area` to the accumulator. -/
def sumAreas (pat : Char) : Nat → GridState → Nat → Nat
  | 0, _, acc => acc
  | fuel + 1, st, acc =>
    let c := st.next pat
    if c.valid st = true then
      let r := c.conn_area st
      sumAreas pat fuel r.2 (acc + r.1)
    else acc

/-- Reinterpret a 64-bit machine word as the signed integer the spec speaks
about (two's complement reading, so the sentinel reads as `-1`). -/
def toInt64 (n : Nat) : Int :=
  if n < 2 ^ 63 then (n : Int) else (n : Int) - (UPTR : Int)

/-- The neighbor candidates named by the spec, over mathematical integer
coordinates: `(x,y+1), (x+1,y), (x-1,y), (x,y-1)` in that order, keeping
exactly the ones inside `[0,WIDTH) x [0,HEIGHT)`.  This is the spec-side
description that `Grid.neighbor`'s wraparound arithmetic is compared to. -/
def neighborSpec (st : GridState) (x y : Int) : List (Int × Int) :=
  [(x, y + 1), (x + 1, y), (x - 1, y), (x, y - 1)].filter fun p =>
    decide (0 ≤ p.1) && decide (p.1 < (st.WIDTH : Int)) && decide (0 ≤ p.2) &&
      decide (p.2 < (st.HEIGHT : Int))

/-- The canonical stream form of a grid: each row's symbols followed by one
newline — exactly the format `output` emits. -/
def rowsStream (rows : List (List Char)) : List Char :=
  rows.flatMap fun r => r ++ ['\n']

/-- A one-cell demonstration state. -/
def demo1 : GridState := ⟨1, 1, fun _ _ => 'Z', fun _ => false⟩

/-- A 2-by-2 demonstration state holding `A` on the diagonal and `B` off
it. -/
def demo2 : GridState := ⟨2, 2, fun x y => if x = y then 'A' else 'B', fun _ => false⟩

/-! Section: Unfolding lemmas for the fuelled walk -/

theorem walkF_invalid (cond : Grid → Bool) (fuel : Nat) (st : GridState) (g : Grid)
    (h : g.valid st = false) : walkF cond fuel st g = (st, [], []) := by
  cases fuel with
  | zero => rfl
  | succ n => simp [walkF, h]

theorem walkF_done (cond : Grid → Bool) (fuel : Nat) (st : GridState) (g : Grid)
    (h : g.done st = true) : walkF cond fuel st g = (st, [], []) := by
  cases fuel with
  | zero => rfl
  | succ n =>
    by_cases hv : g.valid st = false
    · simp [walkF, hv]
    · simp [walkF, hv, h]

theorem walkF_stop (cond : Grid → Bool) (fuel : Nat) (st : GridState) (g : Grid)
    (hv : g.valid st = true) (hd : g.done st = false) (hc : cond g = false) :
    walkF cond (fuel + 1) st g = (st, [], [g]) := by
  simp [walkF, hv, hd, hc]

theorem walkF_go (cond : Grid → Bool) (fuel : Nat) (st : GridState) (g : Grid)
    (hv : g.valid st = true) (hd : g.done st = false) (hc : cond g = true) :
    walkF cond (fuel + 1) st g =
      (let st1 := st.mark g
       let r := seqWalk (fun s h => walkF cond fuel s h) st1 (g.neighbor st1)
       (r.1, r.2.1 ++ [g], g :: r.2.2)) := by
  simp [walkF, hv, hd, hc]

/-! Section: The cell enumeration -/

theorem mem_cellsRM (W H : Nat) (p : Nat × Nat) :
    p ∈ cellsRM W H ↔ p.1 < W ∧ p.2 < H := by
  cases p with
  | mk a b =>
    simp only [cellsRM, List.mem_flatMap, List.mem_map, List.mem_range]
    constructor
    · rintro ⟨y, hy, x, hx, hxy⟩
      cases hxy
      exact ⟨hx, hy⟩
    · rintro ⟨ha, hb⟩
      exact ⟨b, hb, a, ha, rfl⟩

theorem cellsRM_nodup (W H : Nat) : (cellsRM W H).Nodup := by
  rw [cellsRM, List.nodup_flatMap]
  constructor
  · intro y _
    exact (List.nodup_range W).map fun a b h => congrArg Prod.fst h
  · refine (List.nodup_range H).imp ?_
    intro y z hyz
    simp only [Function.onFun, List.disjoint_left, List.mem_map, List.mem_range]
    rintro p ⟨x, _, rfl⟩ ⟨w, _, hpw⟩
    exact hyz (congrArg Prod.snd hpw).symm

theorem cellsRM_length (W H : Nat) : (cellsRM W H).length = H * W := by
  simp [cellsRM, List.length_flatMap, Function.comp_def, List.map_const', List.sum_replicate,
    smul_eq_mul]

theorem flatIndex_inj (W : Nat) (p q : Nat × Nat) (hp : p.1 < W) (hq : q.1 < W)
    (h : p.2 * W + p.1 = q.2 * W + q.1) : p = q := by
  cases p with
  | mk a b =>
    cases q with
    | mk c d =>
      simp only at hp hq h
      have hbd : b = d := by
        rcases Nat.lt_trichotomy b d with hlt | heq | hgt
        · exfalso
          have : b * W + W ≤ d * W := by
            have := Nat.succ_le_of_lt hlt
            calc b * W + W = (b + 1) * W := by ring
            _ ≤ d * W := Nat.mul_le_mul_right W this
          omega
        · exact heq
        · exfalso
          have : d * W + W ≤ b * W := by
            have := Nat.succ_le_of_lt hgt
            calc d * W + W = (d + 1) * W := by ring
            _ ≤ b * W := Nat.mul_le_mul_right W this
          omega
      subst hbd
      simp only [Prod.mk.injEq, and_true]
      omega

/-- Flipping the predicate from `false` to `true` at one member of a
duplicate-free list raises `countP` by one. -/
theorem countP_flip_one (l : List (Nat × Nat)) (p q : (Nat × Nat) → Bool)
    (hnd : l.Nodup) (a : Nat × Nat) (ha : a ∈ l) (hpa : p a = false) (hqa : q a = true)
    (hother : ∀ b ∈ l, b ≠ a → q b = p b) : l.countP q = l.countP p + 1 := by
  induction l with
  | nil => cases ha
  | cons hd tl ih =>
    by_cases hhd : hd = a
    · subst hhd
      have hnotmem : hd ∉ tl := (List.nodup_cons.mp hnd).1
      have htl : tl.countP q = tl.countP p := by
        apply List.countP_congr
        intro b hb
        have hb2 : q b = p b :=
          hother b (List.mem_cons_of_mem _ hb) (fun h => hnotmem (h ▸ hb))
        simp [hb2]
      rw [List.countP_cons, List.countP_cons, htl, hpa, hqa]
      simp
    · have hmem : a ∈ tl := by
        rcases List.mem_cons.mp ha with h | h
        · exact absurd h.symm hhd
        · exact h
      have hc : q hd = p hd := hother hd (List.mem_cons_self hd tl) hhd
      have htl := ih (List.nodup_cons.mp hnd).2 hmem
        (fun b hb hbne => hother b (List.mem_cons_of_mem _ hb) hbne)
      rw [List.countP_cons, List.countP_cons, htl, hc]
      omega

theorem flatIndex_lt (W H x y : Nat) (hx : x < W) (hy : y < H) : y * W + x < W * H := by
  calc y * W + x < y * W + W := by omega
  _ = (y + 1) * W := by ring
  _ ≤ H * W := Nat.mul_le_mul_right W (Nat.succ_le_of_lt hy)
  _ = W * H := Nat.mul_comm H W

/-! Section: Frame facts: `walk` only ever writes the `DONE` overlay -/

@[simp] theorem mark_WIDTH (st : GridState) (g : Grid) : (st.mark g).WIDTH = st.WIDTH := rfl

@[simp] theorem mark_HEIGHT (st : GridState) (g : Grid) : (st.mark g).HEIGHT = st.HEIGHT := rfl

@[simp] theorem mark_MAP (st : GridState) (g : Grid) : (st.mark g).MAP = st.MAP := rfl

theorem seqWalk_frame (f : GridState → Grid → GridState × List Grid × List Grid)
    (hf : ∀ st g, (f st g).1.WIDTH = st.WIDTH ∧ (f st g).1.HEIGHT = st.HEIGHT ∧
      (f st g).1.MAP = st.MAP) (l : List Grid) :
    ∀ st : GridState, (seqWalk f st l).1.WIDTH = st.WIDTH ∧
      (seqWalk f st l).1.HEIGHT = st.HEIGHT ∧ (seqWalk f st l).1.MAP = st.MAP := by
  induction l with
  | nil => intro st; exact ⟨rfl, rfl, rfl⟩
  | cons g gs ih =>
    intro st
    have h1 := hf st g
    have h2 := ih (f st g).1
    exact ⟨h2.1.trans h1.1, h2.2.1.trans h1.2.1, h2.2.2.trans h1.2.2⟩

theorem walkF_frame (cond : Grid → Bool) (fuel : Nat) :
    ∀ (st : GridState) (g : Grid), (walkF cond fuel st g).1.WIDTH = st.WIDTH ∧
      (walkF cond fuel st g).1.HEIGHT = st.HEIGHT ∧ (walkF cond fuel st g).1.MAP = st.MAP := by
  induction fuel with
  | zero => intro st g; exact ⟨rfl, rfl, rfl⟩
  | succ n ih =>
    intro st g
    cases hv : g.valid st with
    | false => rw [walkF_invalid cond _ st g hv]; exact ⟨rfl, rfl, rfl⟩
    | true =>
      cases hd : g.done st with
      | true => rw [walkF_done cond _ st g hd]; exact ⟨rfl, rfl, rfl⟩
      | false =>
        cases hc : cond g with
        | false => rw [walkF_stop cond n st g hv hd hc]; exact ⟨rfl, rfl, rfl⟩
        | true =>
          rw [walkF_go cond n st g hv hd hc]
          have hs := seqWalk_frame (fun s h => walkF cond n s h) ih
            (g.neighbor (st.mark g)) (st.mark g)
          exact ⟨hs.1, hs.2.1, hs.2.2⟩

/-! Section: Monotonicity: visited flags are never cleared by a walk -/

theorem seqWalk_mono (f : GridState → Grid → GridState × List Grid × List Grid)
    (hf : ∀ st g i, st.DONE i = true → (f st g).1.DONE i = true) (l : List Grid) :
    ∀ st i, st.DONE i = true → (seqWalk f st l).1.DONE i = true := by
  induction l with
  | nil => intro st i h; exact h
  | cons g gs ih => intro st i h; exact ih (f st g).1 i (hf st g i h)

theorem walkF_mono (cond : Grid → Bool) (fuel : Nat) :
    ∀ st g i, st.DONE i = true → (walkF cond fuel st g).1.DONE i = true := by
  induction fuel with
  | zero => intro st g i h; exact h
  | succ n ih =>
    intro st g i h
    cases hv : g.valid st with
    | false => rw [walkF_invalid cond _ st g hv]; exact h
    | true =>
      cases hd : g.done st with
      | true => rw [walkF_done cond _ st g hd]; exact h
      | false =>
        cases hc : cond g with
        | false => rw [walkF_stop cond n st g hv hd hc]; exact h
        | true =>
          rw [walkF_go cond n st g hv hd hc]
          refine seqWalk_mono (fun s h => walkF cond n s h) ih
            (g.neighbor (st.mark g)) (st.mark g) i ?_
          show (if i = g.index st then true else st.DONE i) = true
          rw [h]
          exact ite_self true

/-! Section: The unvisited-cell measure -/

theorem unvis_le_of_mono (st' st : GridState) (hW : st'.WIDTH = st.WIDTH)
    (hH : st'.HEIGHT = st.HEIGHT) (hD : ∀ i, st.DONE i = true → st'.DONE i = true) :
    unvis st' ≤ unvis st := by
  rw [unvis, unvis, hW, hH]
  apply List.countP_mono_left
  intro p _ hp
  rw [Bool.not_eq_eq_eq_not, Bool.not_true] at hp ⊢
  cases hst : st.DONE (p.2 * st.WIDTH + p.1) with
  | false => rfl
  | true => rw [hD _ hst] at hp; cases hp

theorem walkF_unvis_le (cond : Grid → Bool) (fuel : Nat) (st : GridState) (g : Grid) :
    unvis (walkF cond fuel st g).1 ≤ unvis st :=
  unvis_le_of_mono _ _ (walkF_frame cond fuel st g).1 (walkF_frame cond fuel st g).2.1
    (walkF_mono cond fuel st g)

theorem unvis_le (st : GridState) : unvis st ≤ st.WIDTH * st.HEIGHT := by
  calc unvis st ≤ (cellsRM st.WIDTH st.HEIGHT).length := List.countP_le_length _
  _ = st.HEIGHT * st.WIDTH := cellsRM_length _ _
  _ = st.WIDTH * st.HEIGHT := Nat.mul_comm _ _

theorem unvis_mark (st : GridState) (g : Grid) (hv : g.valid st = true)
    (hd : g.done st = false) : unvis st = unvis (st.mark g) + 1 := by
  have hx : g.x < st.WIDTH := by
    have := (Bool.and_eq_true _ _).mp hv
    exact of_decide_eq_true this.1
  have hy : g.y < st.HEIGHT := by
    have := (Bool.and_eq_true _ _).mp hv
    exact of_decide_eq_true this.2
  have hmem : (g.x, g.y) ∈ cellsRM st.WIDTH st.HEIGHT := (mem_cellsRM _ _ _).mpr ⟨hx, hy⟩
  refine countP_flip_one (cellsRM st.WIDTH st.HEIGHT)
    (fun p => !(st.mark g).DONE (p.2 * st.WIDTH + p.1))
    (fun p => !st.DONE (p.2 * st.WIDTH + p.1))
    (cellsRM_nodup _ _) (g.x, g.y) hmem ?_ ?_ ?_
  · show (!(if g.y * st.WIDTH + g.x = g.index st then true
      else st.DONE ((g.x, g.y).2 * st.WIDTH + (g.x, g.y).1))) = false
    simp [Grid.index]
  · show (!st.DONE ((g.x, g.y).2 * st.WIDTH + (g.x, g.y).1)) = true
    rw [Grid.done, Grid.index] at hd
    show (!st.DONE (g.y * st.WIDTH + g.x)) = true
    rw [hd]
    rfl
  · intro b hb hbne
    have hne : ¬(b.2 * st.WIDTH + b.1 = g.index st) := by
      intro hidx
      rw [Grid.index] at hidx
      have hbW : b.1 < st.WIDTH := ((mem_cellsRM _ _ _).mp hb).1
      exact hbne (flatIndex_inj st.WIDTH b (g.x, g.y) hbW hx hidx)
    show (!st.DONE (b.2 * st.WIDTH + b.1)) =
      (!(if b.2 * st.WIDTH + b.1 = g.index st then true else st.DONE (b.2 * st.WIDTH + b.1)))
    rw [if_neg hne]

/-! Section: Fuel stabilization: any fuel beyond the unvisited count agrees -/

theorem seqWalk_stab (cond : Grid → Bool) (n : Nat)
    (ih : ∀ st g, unvis st < n → walkF cond n st g = walkF cond (n + 1) st g)
    (l : List Grid) :
    ∀ st, unvis st < n →
      seqWalk (fun s h => walkF cond n s h) st l =
        seqWalk (fun s h => walkF cond (n + 1) s h) st l := by
  induction l with
  | nil => intro st _; rfl
  | cons g gs ihl =>
    intro st h
    have h1 : walkF cond n st g = walkF cond (n + 1) st g := ih st g h
    have h2 : unvis (walkF cond n st g).1 ≤ unvis st := walkF_unvis_le cond n st g
    have h3 := ihl (walkF cond n st g).1 (lt_of_le_of_lt h2 h)
    simp only [seqWalk]
    rw [← h1, h3]

theorem walkF_stab (cond : Grid → Bool) (fuel : Nat) :
    ∀ st g, unvis st < fuel → walkF cond fuel st g = walkF cond (fuel + 1) st g := by
  induction fuel with
  | zero => intro st g h; exact absurd h (Nat.not_lt_zero _)
  | succ n ih =>
    intro st g h
    cases hv : g.valid st with
    | false => rw [walkF_invalid cond _ st g hv, walkF_invalid cond _ st g hv]
    | true =>
      cases hd : g.done st with
      | true => rw [walkF_done cond _ st g hd, walkF_done cond _ st g hd]
      | false =>
        cases hc : cond g with
        | false => rw [walkF_stop cond n st g hv hd hc, walkF_stop cond (n + 1) st g hv hd hc]
        | true =>
          rw [walkF_go cond n st g hv hd hc, walkF_go cond (n + 1) st g hv hd hc]
          have hu : unvis (st.mark g) < n := by
            have := unvis_mark st g hv hd
            omega
          dsimp only
          rw [seqWalk_stab cond n ih (g.neighbor (st.mark g)) (st.mark g) hu]

theorem walkF_fuel_add (cond : Grid → Bool) (st : GridState) (g : Grid) (fuel k : Nat)
    (h : unvis st < fuel) : walkF cond (fuel + k) st g = walkF cond fuel st g := by
  induction k with
  | zero => rfl
  | succ m ihm =>
    have h2 : unvis st < fuel + m := lt_of_lt_of_le h (Nat.le_add_right _ _)
    calc walkF cond (fuel + (m + 1)) st g = walkF cond ((fuel + m) + 1) st g := rfl
    _ = walkF cond (fuel + m) st g := (walkF_stab cond (fuel + m) st g h2).symm
    _ = walkF cond fuel st g := ihm

theorem walkF_fuel_irrel (cond : Grid → Bool) (st : GridState) (g : Grid) (f1 f2 : Nat)
    (h1 : unvis st < f1) (h2 : unvis st < f2) :
    walkF cond f1 st g = walkF cond f2 st g := by
  rcases Nat.le_total f1 f2 with h | h
  · obtain ⟨k, rfl⟩ := Nat.le.dest h
    exact (walkF_fuel_add cond st g f1 k h1).symm
  · obtain ⟨k, rfl⟩ := Nat.le.dest h
    exact walkF_fuel_add cond st g f2 k h2

theorem walkF_eq_walk (cond : Grid → Bool) (st : GridState) (g : Grid) (fuel : Nat)
    (h : unvis st < fuel) : walkF cond fuel st g = g.walk st cond := by
  refine walkF_fuel_irrel cond st g fuel (st.WIDTH * st.HEIGHT + 1) h ?_
  have := unvis_le st
  omega

theorem seqWalk_walk (cond : Grid → Bool) (fuel : Nat) (l : List Grid) :
    ∀ st, unvis st < fuel →
      seqWalk (fun s h => walkF cond fuel s h) st l =
        seqWalk (fun s h => Grid.walk h s cond) st l := by
  induction l with
  | nil => intro st _; rfl
  | cons g gs ihl =>
    intro st h
    have h1 : walkF cond fuel st g = g.walk st cond := walkF_eq_walk cond st g fuel h
    have h2 : unvis (walkF cond fuel st g).1 ≤ unvis st := walkF_unvis_le cond fuel st g
    have h3 := ihl (walkF cond fuel st g).1 (lt_of_le_of_lt h2 h)
    simp only [seqWalk]
    rw [h3, h1]

/-! Section: Trace facts: cells handed to the callbacks -/

theorem seqWalk_trace (cond : Grid → Bool) (n : Nat)
    (ih : ∀ st g, (∀ c ∈ (walkF cond n st g).2.1,
        c.x < st.WIDTH ∧ c.y < st.HEIGHT ∧ st.DONE (c.y * st.WIDTH + c.x) = false ∧
          (walkF cond n st g).1.DONE (c.y * st.WIDTH + c.x) = true) ∧
      (walkF cond n st g).2.1.Nodup ∧
      (∀ c ∈ (walkF cond n st g).2.2, c.x < st.WIDTH ∧ c.y < st.HEIGHT))
    (l : List Grid) :
    ∀ st, (∀ c ∈ (seqWalk (fun s h => walkF cond n s h) st l).2.1,
        c.x < st.WIDTH ∧ c.y < st.HEIGHT ∧ st.DONE (c.y * st.WIDTH + c.x) = false ∧
          (seqWalk (fun s h => walkF cond n s h) st l).1.DONE (c.y * st.WIDTH + c.x) = true) ∧
      (seqWalk (fun s h => walkF cond n s h) st l).2.1.Nodup ∧
      (∀ c ∈ (seqWalk (fun s h => walkF cond n s h) st l).2.2,
        c.x < st.WIDTH ∧ c.y < st.HEIGHT) := by
  induction l with
  | nil =>
    intro st
    exact ⟨fun c hc => absurd hc (List.not_mem_nil c), List.nodup_nil,
      fun c hc => absurd hc (List.not_mem_nil c)⟩
  | cons g gs ihl =>
    intro st
    have ihg := ih st g
    have ihr := ihl (walkF cond n st g).1
    have hfr := walkF_frame cond n st g
    have hmarked : ∀ c : Grid, (walkF cond n st g).1.DONE (c.y * st.WIDTH + c.x) = true →
        (seqWalk (fun s h => walkF cond n s h) (walkF cond n st g).1 gs).1.DONE
          (c.y * st.WIDTH + c.x) = true := by
      intro c hc
      exact seqWalk_mono (fun s h => walkF cond n s h) (walkF_mono cond n) gs
        (walkF cond n st g).1 _ hc
    have hfreshR : ∀ c ∈ (seqWalk (fun s h => walkF cond n s h) (walkF cond n st g).1 gs).2.1,
        (walkF cond n st g).1.DONE (c.y * st.WIDTH + c.x) = false := by
      intro c hc
      have := (ihr.1 c hc).2.2.1
      rw [hfr.1] at this
      exact this
    simp only [seqWalk]
    refine ⟨?_, ?_, ?_⟩
    · intro c hc
      rcases List.mem_append.mp hc with hc1 | hc2
      · obtain ⟨hx, hy, hfresh, hdone⟩ := ihg.1 c hc1
        exact ⟨hx, hy, hfresh, hmarked c hdone⟩
      · obtain ⟨hx, hy, hfresh, hdone⟩ := ihr.1 c hc2
        rw [hfr.1] at hx hfresh hdone
        rw [hfr.2.1] at hy
        refine ⟨hx, hy, ?_, hdone⟩
        cases hst : st.DONE (c.y * st.WIDTH + c.x) with
        | false => rfl
        | true => rw [walkF_mono cond n st g _ hst] at hfresh; cases hfresh
    · refine List.Nodup.append ihg.2.1 ihr.2.1 ?_
      intro c hc1 hc2
      have hdone := (ihg.1 c hc1).2.2.2
      have hfresh := hfreshR c hc2
      rw [hdone] at hfresh
      cases hfresh
    · intro c hc
      rcases List.mem_append.mp hc with hc1 | hc2
      · exact ihg.2.2 c hc1
      · have := ihr.2.2 c hc2
        rw [hfr.1, hfr.2.1] at this
        exact this

theorem walkF_trace (cond : Grid → Bool) (fuel : Nat) :
    ∀ st g, (∀ c ∈ (walkF cond fuel st g).2.1,
        c.x < st.WIDTH ∧ c.y < st.HEIGHT ∧ st.DONE (c.y * st.WIDTH + c.x) = false ∧
          (walkF cond fuel st g).1.DONE (c.y * st.WIDTH + c.x) = true) ∧
      (walkF cond fuel st g).2.1.Nodup ∧
      (∀ c ∈ (walkF cond fuel st g).2.2, c.x < st.WIDTH ∧ c.y < st.HEIGHT) := by
  induction fuel with
  | zero =>
    intro st g
    exact ⟨fun c hc => absurd hc (List.not_mem_nil c), List.nodup_nil,
      fun c hc => absurd hc (List.not_mem_nil c)⟩
  | succ n ih =>
    intro st g
    cases hv : g.valid st with
    | false =>
      rw [walkF_invalid cond _ st g hv]
      exact ⟨fun c hc => absurd hc (List.not_mem_nil c), List.nodup_nil,
        fun c hc => absurd hc (List.not_mem_nil c)⟩
    | true =>
      have hx : g.x < st.WIDTH := of_decide_eq_true ((Bool.and_eq_true _ _).mp hv).1
      have hy : g.y < st.HEIGHT := of_decide_eq_true ((Bool.and_eq_true _ _).mp hv).2
      cases hd : g.done st with
      | true =>
        rw [walkF_done cond _ st g hd]
        exact ⟨fun c hc => absurd hc (List.not_mem_nil c), List.nodup_nil,
          fun c hc => absurd hc (List.not_mem_nil c)⟩
      | false =>
        cases hc : cond g with
        | false =>
          rw [walkF_stop cond n st g hv hd hc]
          refine ⟨fun c hc => absurd hc (List.not_mem_nil c), List.nodup_nil, ?_⟩
          intro c hmem
          rw [List.mem_singleton.mp hmem]
          exact ⟨hx, hy⟩
        | true =>
          rw [walkF_go cond n st g hv hd hc]
          dsimp only
          have hseq := seqWalk_trace cond n ih (g.neighbor (st.mark g)) (st.mark g)
          simp only [mark_WIDTH, mark_HEIGHT] at hseq
          have hmarkg : (st.mark g).DONE (g.y * st.WIDTH + g.x) = true := by
            show (if g.y * st.WIDTH + g.x = g.index st then true else _) = true
            rw [if_pos]
            rfl
          have hfresh_ne : ∀ c ∈ (seqWalk (fun s h => walkF cond n s h) (st.mark g)
              (g.neighbor (st.mark g))).2.1, c ≠ g := by
            intro c hmem heq
            have := (hseq.1 c hmem).2.2.1
            rw [heq] at this
            rw [hmarkg] at this
            cases this
          refine ⟨?_, ?_, ?_⟩
          · intro c hmem
            rcases List.mem_append.mp hmem with hc1 | hc2
            · obtain ⟨hcx, hcy, hcfresh, hcdone⟩ := hseq.1 c hc1
              refine ⟨hcx, hcy, ?_, hcdone⟩
              have hne : ¬(c.y * st.WIDTH + c.x = g.index st) := by
                intro hidx
                rw [Grid.index] at hidx
                exact hfresh_ne c hc1 (by
                  have := flatIndex_inj st.WIDTH (c.x, c.y) (g.x, g.y) hcx hx hidx
                  cases c
                  cases g
                  simpa using this)
              have : (st.mark g).DONE (c.y * st.WIDTH + c.x) =
                  st.DONE (c.y * st.WIDTH + c.x) := by
                show (if c.y * st.WIDTH + c.x = g.index st then true else _) = _
                rw [if_neg hne]
              rw [this] at hcfresh
              exact hcfresh
            · rw [List.mem_singleton.mp hc2]
              refine ⟨hx, hy, ?_, ?_⟩
              · rw [Grid.done, Grid.index] at hd
                exact hd
              · exact seqWalk_mono (fun s h => walkF cond n s h) (walkF_mono cond n) _
                  (st.mark g) _ hmarkg
          · refine List.Nodup.append hseq.2.1 (List.nodup_singleton g) ?_
            intro c hc1 hc2
            exact hfresh_ne c hc1 (List.mem_singleton.mp hc2)
          · intro c hmem
            rcases List.mem_cons.mp hmem with hc1 | hc2
            · rw [hc1]
              exact ⟨hx, hy⟩
            · exact hseq.2.2 c hc2

theorem walk_trace (st : GridState) (cond : Grid → Bool) (g : Grid) :
    (∀ c ∈ (g.walk st cond).2.1,
        c.x < st.WIDTH ∧ c.y < st.HEIGHT ∧ st.DONE (c.y * st.WIDTH + c.x) = false ∧
          (g.walk st cond).1.DONE (c.y * st.WIDTH + c.x) = true) ∧
      (g.walk st cond).2.1.Nodup ∧
      (∀ c ∈ (g.walk st cond).2.2, c.x < st.WIDTH ∧ c.y < st.HEIGHT) :=
  walkF_trace cond (st.WIDTH * st.HEIGHT + 1) st g

/-! Section: Counting: each action invocation marks exactly one new cell -/

theorem visCount_mark (st : GridState) (g : Grid) (hv : g.valid st = true)
    (hd : g.done st = false) : visCount (st.mark g) = visCount st + 1 := by
  have hx : g.x < st.WIDTH := of_decide_eq_true ((Bool.and_eq_true _ _).mp hv).1
  have hy : g.y < st.HEIGHT := of_decide_eq_true ((Bool.and_eq_true _ _).mp hv).2
  have hmem : (g.x, g.y) ∈ cellsRM st.WIDTH st.HEIGHT := (mem_cellsRM _ _ _).mpr ⟨hx, hy⟩
  refine countP_flip_one (cellsRM st.WIDTH st.HEIGHT)
    (fun p => st.DONE (p.2 * st.WIDTH + p.1))
    (fun p => (st.mark g).DONE (p.2 * st.WIDTH + p.1))
    (cellsRM_nodup _ _) (g.x, g.y) hmem ?_ ?_ ?_
  · show st.DONE ((g.x, g.y).2 * st.WIDTH + (g.x, g.y).1) = false
    rw [Grid.done, Grid.index] at hd
    exact hd
  · show (if (g.x, g.y).2 * st.WIDTH + (g.x, g.y).1 = g.index st then true else _) = true
    rw [if_pos]
    rfl
  · intro b hb hbne
    have hne : ¬(b.2 * st.WIDTH + b.1 = g.index st) := by
      intro hidx
      rw [Grid.index] at hidx
      have hbW : b.1 < st.WIDTH := ((mem_cellsRM _ _ _).mp hb).1
      exact hbne (flatIndex_inj st.WIDTH b (g.x, g.y) hbW hx hidx)
    show (if b.2 * st.WIDTH + b.1 = g.index st then true else st.DONE (b.2 * st.WIDTH + b.1)) =
      st.DONE (b.2 * st.WIDTH + b.1)
    rw [if_neg hne]

theorem seqWalk_count (cond : Grid → Bool) (n : Nat)
    (ih : ∀ st g, visCount (walkF cond n st g).1 =
      visCount st + (walkF cond n st g).2.1.length) (l : List Grid) :
    ∀ st, visCount (seqWalk (fun s h => walkF cond n s h) st l).1 =
      visCount st + (seqWalk (fun s h => walkF cond n s h) st l).2.1.length := by
  induction l with
  | nil => intro st; rfl
  | cons g gs ihl =>
    intro st
    simp only [seqWalk]
    rw [List.length_append]
    have h1 := ih st g
    have h2 := ihl (walkF cond n st g).1
    omega

theorem walkF_count (cond : Grid → Bool) (fuel : Nat) :
    ∀ st g, visCount (walkF cond fuel st g).1 =
      visCount st + (walkF cond fuel st g).2.1.length := by
  induction fuel with
  | zero => intro st g; rfl
  | succ n ih =>
    intro st g
    cases hv : g.valid st with
    | false => rw [walkF_invalid cond _ st g hv]; rfl
    | true =>
      cases hd : g.done st with
      | true => rw [walkF_done cond _ st g hd]; rfl
      | false =>
        cases hc : cond g with
        | false => rw [walkF_stop cond n st g hv hd hc]; rfl
        | true =>
          rw [walkF_go cond n st g hv hd hc]
          dsimp only
          rw [List.length_append]
          have h1 := seqWalk_count cond n ih (g.neighbor (st.mark g)) (st.mark g)
          have h2 := visCount_mark st g hv hd
          simp only [List.length_singleton]
          omega

theorem walk_count (st : GridState) (cond : Grid → Bool) (g : Grid) :
    visCount (g.walk st cond).1 = visCount st + (g.walk st cond).2.1.length :=
  walkF_count cond (st.WIDTH * st.HEIGHT + 1) st g

theorem walk_frame (st : GridState) (cond : Grid → Bool) (g : Grid) :
    (g.walk st cond).1.WIDTH = st.WIDTH ∧ (g.walk st cond).1.HEIGHT = st.HEIGHT ∧
      (g.walk st cond).1.MAP = st.MAP :=
  walkF_frame cond (st.WIDTH * st.HEIGHT + 1) st g

theorem walk_mono (st : GridState) (cond : Grid → Bool) (g : Grid) (i : Nat)
    (h : st.DONE i = true) : (g.walk st cond).1.DONE i = true :=
  walkF_mono cond (st.WIDTH * st.HEIGHT + 1) st g i h

/-! Section: Claim C1: walk is exactly the specified depth-first algorithm -/

theorem walk_unfold (st : GridState) (cond : Grid → Bool) (g : Grid) :
    g.walk st cond =
      if g.valid st = false then (st, [], [])
      else if g.done st = true then (st, [], [])
      else if cond g = false then (st, [], [g])
      else
        (let st1 := st.mark g
         let r := seqWalk (fun s h => Grid.walk h s cond) st1 (g.neighbor st1)
         (r.1, r.2.1 ++ [g], g :: r.2.2)) := by
  have hlhs : g.walk st cond = walkF cond (st.WIDTH * st.HEIGHT + 1) st g := rfl
  cases hv : g.valid st with
  | false =>
    rw [hlhs, walkF_invalid cond _ st g hv]
    simp
  | true =>
    cases hd : g.done st with
    | true =>
      rw [hlhs, walkF_done cond _ st g hd]
      simp
    | false =>
      cases hc : cond g with
      | false =>
        rw [hlhs, walkF_stop cond _ st g hv hd hc]
        simp
      | true =>
        have hu : unvis (st.mark g) < st.WIDTH * st.HEIGHT := by
          have h1 := unvis_mark st g hv hd
          have h2 := unvis_le st
          omega
        rw [hlhs, walkF_go cond _ st g hv hd hc]
        dsimp only
        rw [seqWalk_walk cond (st.WIDTH * st.HEIGHT) (g.neighbor (st.mark g)) (st.mark g) hu]
        simp

/-- Claim C1: for every start coordinate, condition predicate and action
callback, `walk` returns immediately with the state unchanged (and no action
invocation) when the start is invalid or already visited; when the condition
on the start fails it also returns with the state unchanged — the start is
left unvisited — after invoking only the condition; otherwise it marks the
start visited, recursively walks each neighbor in the fixed neighbor order,
and invokes the action on the start only after all neighbor recursions
(post-order: the action trace is the neighbors' trace followed by the
start). -/
theorem walk_spec (st : GridState) (cond : Grid → Bool) (g : Grid) :
    g.walk st cond =
      if g.valid st = false then (st, [], [])
      else if g.done st = true then (st, [], [])
      else if cond g = false then (st, [], [g])
      else
        (let st1 := st.mark g
         let r := seqWalk (fun s h => Grid.walk h s cond) st1 (g.neighbor st1)
         (r.1, r.2.1 ++ [g], g :: r.2.2)) :=
  walk_unfold st cond g

/-! Section: Claim C2: at most one action invocation per cell per epoch -/

theorem walkCalls_spec (calls : List ((Grid → Bool) × Grid)) :
    ∀ st, (∀ c ∈ (walkCalls calls st).2,
        c.x < st.WIDTH ∧ c.y < st.HEIGHT ∧ st.DONE (c.y * st.WIDTH + c.x) = false ∧
          (walkCalls calls st).1.DONE (c.y * st.WIDTH + c.x) = true) ∧
      (walkCalls calls st).2.Nodup ∧
      ((walkCalls calls st).1.WIDTH = st.WIDTH ∧ (walkCalls calls st).1.HEIGHT = st.HEIGHT) ∧
      (∀ i, st.DONE i = true → (walkCalls calls st).1.DONE i = true) := by
  induction calls with
  | nil =>
    intro st
    exact ⟨fun c hc => absurd hc (List.not_mem_nil c), List.nodup_nil, ⟨rfl, rfl⟩,
      fun i h => h⟩
  | cons cg rest ihl =>
    intro st
    have hwt := walk_trace st cg.1 cg.2
    have hfr := walk_frame st cg.1 cg.2
    have ihr := ihl (cg.2.walk st cg.1).1
    simp only [walkCalls]
    have hmarked : ∀ j, (cg.2.walk st cg.1).1.DONE j = true →
        (walkCalls rest (cg.2.walk st cg.1).1).1.DONE j = true := fun j hj =>
      (ihl (cg.2.walk st cg.1).1).2.2.2 j hj
    refine ⟨?_, ?_, ?_, ?_⟩
    · intro c hcmem
      rcases List.mem_append.mp hcmem with hc1 | hc2
      · obtain ⟨hx, hy, hfresh, hdone⟩ := hwt.1 c hc1
        exact ⟨hx, hy, hfresh, hmarked _ hdone⟩
      · obtain ⟨hx, hy, hfresh, hdone⟩ := ihr.1 c hc2
        rw [hfr.1] at hx hfresh hdone
        rw [hfr.2.1] at hy
        refine ⟨hx, hy, ?_, hdone⟩
        cases hst : st.DONE (c.y * st.WIDTH + c.x) with
        | false => rfl
        | true => rw [walk_mono st cg.1 cg.2 _ hst] at hfresh; cases hfresh
    · refine List.Nodup.append hwt.2.1 ihr.2.1 ?_
      intro c hc1 hc2
      have hdone := (hwt.1 c hc1).2.2.2
      have hfresh := (ihr.1 c hc2).2.2.1
      rw [hfr.1] at hfresh
      rw [hdone] at hfresh
      cases hfresh
    · exact ⟨ihr.2.2.1.1.trans hfr.1, ihr.2.2.1.2.trans hfr.2.1⟩
    · intro i hi
      exact ihr.2.2.2 i (walk_mono st cg.1 cg.2 i hi)

/-- Claim C2: within one traversal epoch — no matter how many `walk` calls
are made, each with its own condition and action — every coordinate has the
action invoked on it at most once, and a cell once marked visited stays
visited through the whole sequence of walks. -/
theorem walk_at_most_once_per_epoch (calls : List ((Grid → Bool) × Grid)) (st : GridState) :
    (∀ g : Grid, (walkCalls calls st).2.count g ≤ 1) ∧
      (∀ i, st.DONE i = true → (walkCalls calls st).1.DONE i = true) := by
  refine ⟨?_, (walkCalls_spec calls st).2.2.2⟩
  intro g
  exact List.nodup_iff_count_le_one.mp (walkCalls_spec calls st).2.1 g

/-! Section: Claim C3: termination, bounded by the cell count -/

/-- Claim C3: `walk` terminates, and the fuel bound is the grid's cell
count: every fuel beyond `WIDTH * HEIGHT` computes the same result as
`Grid.walk` (so the C++ recursion, whose non-base-case calls strictly shrink
the unvisited set, is this function), and the number of non-base-case calls —
the action invocations — is at most `WIDTH * HEIGHT`. -/
theorem walk_terminates (st : GridState) (cond : Grid → Bool) (g : Grid) (fuel : Nat)
    (h : st.WIDTH * st.HEIGHT < fuel) :
    walkF cond fuel st g = g.walk st cond ∧
      (g.walk st cond).2.1.length ≤ st.WIDTH * st.HEIGHT := by
  constructor
  · exact walkF_eq_walk cond st g fuel (lt_of_le_of_lt (unvis_le st) h)
  · have h1 := walk_count st cond g
    have hfr := walk_frame st cond g
    have h2 : visCount (g.walk st cond).1 ≤ st.WIDTH * st.HEIGHT := by
      calc visCount (g.walk st cond).1
          ≤ (cellsRM (g.walk st cond).1.WIDTH (g.walk st cond).1.HEIGHT).length :=
            List.countP_le_length _
      _ = (g.walk st cond).1.HEIGHT * (g.walk st cond).1.WIDTH := cellsRM_length _ _
      _ = st.WIDTH * st.HEIGHT := by rw [hfr.1, hfr.2.1]; exact Nat.mul_comm _ _
    omega

/-- Witness for C3 at a concrete input: a 2-by-2 grid, fuel 5. -/
theorem walk_terminates_witness :
    walkF (fun _ => true) 5 demo2 ⟨0, 0⟩ = Grid.walk ⟨0, 0⟩ demo2 (fun _ => true) ∧
      (Grid.walk ⟨0, 0⟩ demo2 (fun _ => true)).2.1.length ≤ demo2.WIDTH * demo2.HEIGHT :=
  walk_terminates demo2 (fun _ => true) ⟨0, 0⟩ 5 (by decide)

/-! Section: Claim C6: refresh clears the overlay and nothing else -/

/-- Claim C6: after `refresh()` the visited flag of every coordinate is
false, and the cell contents and the configured width and height are
unchanged. -/
theorem refresh_spec (st : GridState) :
    (∀ c : Grid, c.done st.refresh = false) ∧ st.refresh.MAP = st.MAP ∧
      st.refresh.WIDTH = st.WIDTH ∧ st.refresh.HEIGHT = st.HEIGHT :=
  ⟨fun _ => rfl, rfl, rfl, rfl⟩

/-! Section: Claim C7: conn_area on an invalid coordinate is a no-op -/

/-- Claim C7: on an invalid coordinate, `conn_area` returns 0 and leaves the
visited overlay (indeed the whole state) unchanged, and the underlying walk
runs no callback at all. -/
theorem conn_area_invalid (st : GridState) (g : Grid) (h : g.valid st = false) :
    (g.conn_area st).1 = 0 ∧ (g.conn_area st).2 = st ∧
      (g.walk st (fun m => m.tile st == g.tile st)).2.1 = [] ∧
      (g.walk st (fun m => m.tile st == g.tile st)).2.2 = [] := by
  have hw : g.walk st (fun m => m.tile st == g.tile st) = (st, [], []) :=
    walkF_invalid _ _ st g h
  refine ⟨?_, ?_, ?_, ?_⟩ <;> simp [Grid.conn_area, hw]

/-- Witness for C7 at a concrete input: the sentinel cell on 2-by-2. -/
theorem conn_area_invalid_witness :
    (Grid.sentinel.conn_area demo2).1 = 0 ∧ (Grid.sentinel.conn_area demo2).2 = demo2 ∧
      (Grid.sentinel.walk demo2 (fun m => m.tile demo2 == Grid.sentinel.tile demo2)).2.1 = [] ∧
      (Grid.sentinel.walk demo2 (fun m => m.tile demo2 == Grid.sentinel.tile demo2)).2.2 = [] :=
  conn_area_invalid demo2 Grid.sentinel (by decide)

/-! Section: Claim C9: callbacks only ever see valid, in-bounds coordinates -/

/-- Claim C9: both the condition predicate and the action callback are only
invoked on coordinates that are valid, whose flat `DONE` index is moreover
below `WIDTH * HEIGHT`, so the unchecked `tile()` and `done()` accesses that
callbacks typically perform are in-bounds. -/
theorem walk_callbacks_valid (st : GridState) (cond : Grid → Bool) (g : Grid) (c : Grid)
    (h : c ∈ (g.walk st cond).2.1 ∨ c ∈ (g.walk st cond).2.2) :
    c.valid st = true ∧ c.index st < st.WIDTH * st.HEIGHT := by
  have hb : c.x < st.WIDTH ∧ c.y < st.HEIGHT := by
    rcases h with h1 | h2
    · exact ⟨((walk_trace st cond g).1 c h1).1, ((walk_trace st cond g).1 c h1).2.1⟩
    · exact (walk_trace st cond g).2.2 c h2
  constructor
  · show (decide (c.x < st.WIDTH) && decide (c.y < st.HEIGHT)) = true
    rw [decide_eq_true hb.1, decide_eq_true hb.2]
    rfl
  · show c.y * st.WIDTH + c.x < st.WIDTH * st.HEIGHT
    exact flatIndex_lt _ _ _ _ hb.1 hb.2

/-- Witness for C9 at a concrete input: the start cell itself appears in the
action trace of a walk over the 2-by-2 grid. -/
theorem walk_callbacks_valid_witness :
    (Grid.mk 0 0).valid demo2 = true ∧ (Grid.mk 0 0).index demo2 < demo2.WIDTH * demo2.HEIGHT :=
  walk_callbacks_valid demo2 (fun _ => true) ⟨0, 0⟩ ⟨0, 0⟩ (Or.inl (by decide))

/-! Section: The scan `next` and the sentinel -/

@[simp] theorem refresh_WIDTH (st : GridState) : st.refresh.WIDTH = st.WIDTH := rfl

@[simp] theorem refresh_HEIGHT (st : GridState) : st.refresh.HEIGHT = st.HEIGHT := rfl

@[simp] theorem refresh_MAP (st : GridState) : st.refresh.MAP = st.MAP := rfl

@[simp] theorem refresh_DONE (st : GridState) (i : Nat) : st.refresh.DONE i = false := rfl

theorem next_spec (st : GridState) (pat : Char) :
    (st.next pat = Grid.sentinel ∧ ∀ p ∈ cellsRM st.WIDTH st.HEIGHT,
        (st.MAP p.1 p.2 == pat && !st.DONE (p.2 * st.WIDTH + p.1)) = false) ∨
      ((st.next pat).x < st.WIDTH ∧ (st.next pat).y < st.HEIGHT ∧
        st.MAP (st.next pat).x (st.next pat).y = pat ∧
        st.DONE ((st.next pat).y * st.WIDTH + (st.next pat).x) = false) := by
  cases hf : (cellsRM st.WIDTH st.HEIGHT).find?
      (fun p => st.MAP p.1 p.2 == pat && !(Grid.mk p.1 p.2).done st) with
  | none =>
    left
    constructor
    · show (match (cellsRM st.WIDTH st.HEIGHT).find?
          (fun p => st.MAP p.1 p.2 == pat && !(Grid.mk p.1 p.2).done st) with
        | some p => Grid.mk p.1 p.2
        | none => Grid.sentinel) = Grid.sentinel
      rw [hf]
    · intro p hp
      have := List.find?_eq_none.mp hf p hp
      exact Bool.not_eq_true _ ▸ Bool.of_not_eq_true this
  | some p =>
    right
    have hmem := List.mem_of_find?_eq_some hf
    have hpred := List.find?_some hf
    have hnext : st.next pat = Grid.mk p.1 p.2 := by
      show (match (cellsRM st.WIDTH st.HEIGHT).find?
          (fun p => st.MAP p.1 p.2 == pat && !(Grid.mk p.1 p.2).done st) with
        | some p => Grid.mk p.1 p.2
        | none => Grid.sentinel) = Grid.mk p.1 p.2
      rw [hf]
    have hb := (mem_cellsRM _ _ _).mp hmem
    have hsplit := (Bool.and_eq_true _ _).mp hpred
    rw [hnext]
    refine ⟨hb.1, hb.2, eq_of_beq hsplit.1, ?_⟩
    have := hsplit.2
    rw [Bool.not_eq_eq_eq_not, Bool.not_true] at this
    exact this

theorem sentinel_invalid (st : GridState) (hW : st.WIDTH ≤ 1024) :
    Grid.sentinel.valid st = false := by
  have hlt : ¬(Grid.sentinel.x < st.WIDTH) := by
    show ¬(UPTR - 1 < st.WIDTH)
    have : (1024 : Nat) < UPTR - 1 := by norm_num [UPTR]
    omega
  show (decide (Grid.sentinel.x < st.WIDTH) && _) = false
  rw [decide_eq_false hlt]
  rfl

/-- Claim C10: the default-constructed sentinel coordinate is invalid for
every configured grid within the 1024-cell maximum — its `-1` coordinates
wrap to `2^64 - 1`, which fails the bound tests — so the not-found result of
`next` is exactly distinguished from any found cell by a `valid()` test. -/
theorem sentinel_next_valid (st : GridState) (pat : Char)
    (hW : st.WIDTH ≤ 1024) (_hH : st.HEIGHT ≤ 1024) :
    Grid.sentinel.valid st = false ∧
      ((st.next pat).valid st = true ↔ st.next pat ≠ Grid.sentinel) := by
  have hsent := sentinel_invalid st hW
  refine ⟨hsent, ?_, ?_⟩
  · intro hval hsen
    rw [hsen, hsent] at hval
    cases hval
  · intro hne
    rcases next_spec st pat with ⟨hs, _⟩ | ⟨hx, hy, _, _⟩
    · exact absurd hs hne
    · show (decide _ && decide _) = true
      rw [decide_eq_true hx, decide_eq_true hy]
      rfl

/-- Witness for C10 at a concrete input: the 2-by-2 demonstration grid. -/
theorem sentinel_next_valid_witness :
    Grid.sentinel.valid demo2 = false ∧
      ((demo2.next 'A').valid demo2 = true ↔ demo2.next 'A' ≠ Grid.sentinel) :=
  sentinel_next_valid demo2 'A' (by decide) (by decide)

/-! Section: Counting occurrences of a symbol -/

theorem stat_eq_countP (st : GridState) (pat : Char) :
    st.stat pat = (cellsRM st.WIDTH st.HEIGHT).countP fun p => st.MAP p.1 p.2 == pat := by
  rw [GridState.stat, List.count, List.countP_map]
  rfl

theorem unvisPat_refresh (st : GridState) (pat : Char) :
    unvisPat st.refresh pat = st.stat pat := by
  rw [unvisPat, stat_eq_countP]
  simp only [refresh_WIDTH, refresh_HEIGHT, refresh_MAP, refresh_DONE]
  apply List.countP_congr
  intro p _
  simp

theorem countP_split (l : List (Nat × Nat)) (p q : (Nat × Nat) → Bool) :
    l.countP p = l.countP (fun a => p a && q a) + l.countP (fun a => p a && !q a) := by
  induction l with
  | nil => rfl
  | cons hd tl ih =>
    rw [List.countP_cons, List.countP_cons, List.countP_cons, ih]
    cases hp : p hd <;> cases hq : q hd <;> simp [hp, hq] <;> omega

/-! Section: A walk marks only valid cells that satisfy the condition -/

theorem seqWalk_newMarks (cond : Grid → Bool) (n : Nat)
    (ih : ∀ st g i, (walkF cond n st g).1.DONE i = true → st.DONE i = true ∨
      ∃ h : Grid, h.x < st.WIDTH ∧ h.y < st.HEIGHT ∧ cond h = true ∧
        i = h.y * st.WIDTH + h.x) (l : List Grid) :
    ∀ st i, (seqWalk (fun s h => walkF cond n s h) st l).1.DONE i = true →
      st.DONE i = true ∨ ∃ h : Grid, h.x < st.WIDTH ∧ h.y < st.HEIGHT ∧ cond h = true ∧
        i = h.y * st.WIDTH + h.x := by
  induction l with
  | nil => intro st i hi; exact Or.inl hi
  | cons g gs ihl =>
    intro st i hi
    have hfr := walkF_frame cond n st g
    rcases ihl (walkF cond n st g).1 i hi with h2 | ⟨c, hcx, hcy, hcc, hci⟩
    · exact ih st g i h2
    · right
      rw [hfr.1] at hcx hci
      rw [hfr.2.1] at hcy
      exact ⟨c, hcx, hcy, hcc, hci⟩

theorem walkF_newMarks (cond : Grid → Bool) (fuel : Nat) :
    ∀ st g i, (walkF cond fuel st g).1.DONE i = true → st.DONE i = true ∨
      ∃ h : Grid, h.x < st.WIDTH ∧ h.y < st.HEIGHT ∧ cond h = true ∧
        i = h.y * st.WIDTH + h.x := by
  induction fuel with
  | zero => intro st g i hi; exact Or.inl hi
  | succ n ih =>
    intro st g i hi
    cases hv : g.valid st with
    | false => rw [walkF_invalid cond _ st g hv] at hi; exact Or.inl hi
    | true =>
      have hx : g.x < st.WIDTH := of_decide_eq_true ((Bool.and_eq_true _ _).mp hv).1
      have hy : g.y < st.HEIGHT := of_decide_eq_true ((Bool.and_eq_true _ _).mp hv).2
      cases hd : g.done st with
      | true => rw [walkF_done cond _ st g hd] at hi; exact Or.inl hi
      | false =>
        cases hc : cond g with
        | false => rw [walkF_stop cond n st g hv hd hc] at hi; exact Or.inl hi
        | true =>
          rw [walkF_go cond n st g hv hd hc] at hi
          dsimp only at hi
          rcases seqWalk_newMarks cond n ih (g.neighbor (st.mark g)) (st.mark g) i hi with
            h2 | ⟨c, hcx, hcy, hcc, hci⟩
          · by_cases hig : i = g.index st
            · right
              rw [Grid.index] at hig
              exact ⟨g, hx, hy, hc, hig⟩
            · left
              have : (st.mark g).DONE i = st.DONE i := by
                show (if i = g.index st then true else st.DONE i) = st.DONE i
                rw [if_neg hig]
              rw [this] at h2
              exact h2
          · right
            exact ⟨c, hcx, hcy, hcc, hci⟩

theorem walk_newMarks (st : GridState) (cond : Grid → Bool) (g : Grid) (i : Nat)
    (hi : (g.walk st cond).1.DONE i = true) : st.DONE i = true ∨
      ∃ h : Grid, h.x < st.WIDTH ∧ h.y < st.HEIGHT ∧ cond h = true ∧
        i = h.y * st.WIDTH + h.x :=
  walkF_newMarks cond (st.WIDTH * st.HEIGHT + 1) st g i hi

theorem countP_congr_bool (l : List (Nat × Nat)) (p q : (Nat × Nat) → Bool)
    (h : ∀ a ∈ l, p a = q a) : l.countP p = l.countP q := by
  apply List.countP_congr
  intro a ha
  rw [h a ha]

/-! Section: Accounting for `conn_area` at a freshly found cell -/

theorem conn_area_found (st : GridState) (pat : Char) (c : Grid)
    (hx : c.x < st.WIDTH) (hy : c.y < st.HEIGHT)
    (hmap : st.MAP c.x c.y = pat) (hfresh : st.DONE (c.y * st.WIDTH + c.x) = false)
    (hinv : ∀ p ∈ cellsRM st.WIDTH st.HEIGHT, st.DONE (p.2 * st.WIDTH + p.1) = true →
      st.MAP p.1 p.2 = pat) :
    1 ≤ (c.conn_area st).1 ∧
      unvisPat st pat = unvisPat (c.conn_area st).2 pat + (c.conn_area st).1 ∧
      (c.conn_area st).2.WIDTH = st.WIDTH ∧ (c.conn_area st).2.HEIGHT = st.HEIGHT ∧
      (c.conn_area st).2.MAP = st.MAP ∧
      (∀ p ∈ cellsRM st.WIDTH st.HEIGHT,
        (c.conn_area st).2.DONE (p.2 * st.WIDTH + p.1) = true → st.MAP p.1 p.2 = pat) := by
  have hvalid : c.valid st = true := by
    show (decide (c.x < st.WIDTH) && decide (c.y < st.HEIGHT)) = true
    rw [decide_eq_true hx, decide_eq_true hy]
    rfl
  have hdone : c.done st = false := hfresh
  have hca1 : (c.conn_area st).1 =
      (c.walk st (fun m => m.tile st == c.tile st)).2.1.length := rfl
  have hca2 : (c.conn_area st).2 = (c.walk st (fun m => m.tile st == c.tile st)).1 := rfl
  have hfr := walk_frame st (fun m => m.tile st == c.tile st) c
  have hcnt := walk_count st (fun m => m.tile st == c.tile st) c
  have hmono := fun i => walk_mono st (fun m => m.tile st == c.tile st) c i
  have hlen : 1 ≤ (c.conn_area st).1 := by
    have hspec := walk_unfold st (fun m => m.tile st == c.tile st) c
    rw [hvalid, hdone] at hspec
    simp at hspec
    rw [hca1, hspec]
    simp
  have hnew : ∀ p ∈ cellsRM st.WIDTH st.HEIGHT,
      st.DONE (p.2 * st.WIDTH + p.1) = false →
      (c.walk st (fun m => m.tile st == c.tile st)).1.DONE (p.2 * st.WIDTH + p.1) = true →
      (st.MAP p.1 p.2 == pat) = true := by
    intro p hp hD hD'
    rcases walk_newMarks st (fun m => m.tile st == c.tile st) c _ hD' with h1 | ⟨h, hhx, _, hhc, hhi⟩
    · rw [h1] at hD; cases hD
    · have hpW : p.1 < st.WIDTH := ((mem_cellsRM _ _ _).mp hp).1
      have hpq : p = (h.x, h.y) := flatIndex_inj st.WIDTH p (h.x, h.y) hpW hhx hhi
      have hmm : st.MAP h.x h.y = st.MAP c.x c.y := eq_of_beq hhc
      rw [hpq]
      show (st.MAP h.x h.y == pat) = true
      rw [hmm, hmap]
      exact beq_self_eq_true pat
  have hpres : ∀ p ∈ cellsRM st.WIDTH st.HEIGHT,
      (c.conn_area st).2.DONE (p.2 * st.WIDTH + p.1) = true → st.MAP p.1 p.2 = pat := by
    intro p hp hD'
    rw [hca2] at hD'
    cases hD : st.DONE (p.2 * st.WIDTH + p.1) with
    | true => exact hinv p hp hD
    | false => exact eq_of_beq (hnew p hp hD hD')
  refine ⟨hlen, ?_, hca2 ▸ hfr.1, hca2 ▸ hfr.2.1, hca2 ▸ hfr.2.2, hpres⟩
  have hu' : unvisPat (c.conn_area st).2 pat =
      (cellsRM st.WIDTH st.HEIGHT).countP (fun p => st.MAP p.1 p.2 == pat &&
        !(c.walk st (fun m => m.tile st == c.tile st)).1.DONE (p.2 * st.WIDTH + p.1)) := by
    rw [hca2, unvisPat, hfr.1, hfr.2.1, hfr.2.2]
  have hv' : visCount (c.walk st (fun m => m.tile st == c.tile st)).1 =
      (cellsRM st.WIDTH st.HEIGHT).countP
        (fun p => (c.walk st (fun m => m.tile st == c.tile st)).1.DONE
          (p.2 * st.WIDTH + p.1)) := by
    rw [visCount, hfr.1, hfr.2.1]
  have c1 := countP_split (cellsRM st.WIDTH st.HEIGHT)
    (fun p => st.MAP p.1 p.2 == pat && !st.DONE (p.2 * st.WIDTH + p.1))
    (fun p => (c.walk st (fun m => m.tile st == c.tile st)).1.DONE (p.2 * st.WIDTH + p.1))
  have c2 : (cellsRM st.WIDTH st.HEIGHT).countP
      (fun p => (st.MAP p.1 p.2 == pat && !st.DONE (p.2 * st.WIDTH + p.1)) &&
        !(c.walk st (fun m => m.tile st == c.tile st)).1.DONE (p.2 * st.WIDTH + p.1)) =
      (cellsRM st.WIDTH st.HEIGHT).countP
      (fun p => st.MAP p.1 p.2 == pat &&
        !(c.walk st (fun m => m.tile st == c.tile st)).1.DONE (p.2 * st.WIDTH + p.1)) := by
    apply countP_congr_bool
    intro p _
    cases hD : st.DONE (p.2 * st.WIDTH + p.1) with
    | true => have h2 := hmono _ hD; simp [hD, h2]
    | false => simp [hD]
  have c3 : (cellsRM st.WIDTH st.HEIGHT).countP
      (fun p => (st.MAP p.1 p.2 == pat && !st.DONE (p.2 * st.WIDTH + p.1)) &&
        (c.walk st (fun m => m.tile st == c.tile st)).1.DONE (p.2 * st.WIDTH + p.1)) =
      (cellsRM st.WIDTH st.HEIGHT).countP
      (fun p => (c.walk st (fun m => m.tile st == c.tile st)).1.DONE (p.2 * st.WIDTH + p.1) &&
        !st.DONE (p.2 * st.WIDTH + p.1)) := by
    apply countP_congr_bool
    intro p hp
    cases hD : st.DONE (p.2 * st.WIDTH + p.1) with
    | true => have h2 := hmono _ hD; simp [hD, h2]
    | false =>
      cases hD' : (c.walk st (fun m => m.tile st == c.tile st)).1.DONE
          (p.2 * st.WIDTH + p.1) with
      | false => simp [hD, hD']
      | true => have hA := hnew p hp hD hD'; simp [hD, hD', hA]
  have c4 := countP_split (cellsRM st.WIDTH st.HEIGHT)
    (fun p => (c.walk st (fun m => m.tile st == c.tile st)).1.DONE (p.2 * st.WIDTH + p.1))
    (fun p => st.DONE (p.2 * st.WIDTH + p.1))
  have c5 : (cellsRM st.WIDTH st.HEIGHT).countP
      (fun p => (c.walk st (fun m => m.tile st == c.tile st)).1.DONE (p.2 * st.WIDTH + p.1) &&
        st.DONE (p.2 * st.WIDTH + p.1)) =
      (cellsRM st.WIDTH st.HEIGHT).countP (fun p => st.DONE (p.2 * st.WIDTH + p.1)) := by
    apply countP_congr_bool
    intro p _
    cases hD : st.DONE (p.2 * st.WIDTH + p.1) with
    | true => have h2 := hmono _ hD; simp [hD, h2]
    | false => simp [hD]
  rw [hca1, hu', unvisPat]
  rw [hv', visCount] at hcnt
  omega

/-! Section: The component-enumeration loop totals `stat` -/

theorem sumAreas_invariant (pat : Char) (fuel : Nat) :
    ∀ st acc, st.WIDTH ≤ 1024 → st.HEIGHT ≤ 1024 →
      (∀ p ∈ cellsRM st.WIDTH st.HEIGHT, st.DONE (p.2 * st.WIDTH + p.1) = true →
        st.MAP p.1 p.2 = pat) →
      unvisPat st pat < fuel →
      sumAreas pat fuel st acc = acc + unvisPat st pat := by
  induction fuel with
  | zero => intro st acc _ _ _ h; exact absurd h (Nat.not_lt_zero _)
  | succ n ih =>
    intro st acc hW hH hinv hlt
    simp only [sumAreas]
    cases hval : (st.next pat).valid st with
    | false =>
      simp only [Bool.false_eq_true, if_false]
      have hzero : unvisPat st pat = 0 := by
        rcases next_spec st pat with ⟨_, hall⟩ | ⟨hx, hy, _, _⟩
        · rw [unvisPat]
          apply List.countP_eq_zero.mpr
          intro p hp
          rw [hall p hp]
          exact Bool.false_ne_true
        · exfalso
          have : (st.next pat).valid st = true := by
            show (decide _ && decide _) = true
            rw [decide_eq_true hx, decide_eq_true hy]
            rfl
          rw [hval] at this
          cases this
      rw [hzero]
      omega
    | true =>
      simp only [if_true]
      rcases next_spec st pat with ⟨hs, _⟩ | ⟨hx, hy, hm, hfres⟩
      · exfalso
        rw [hs, sentinel_invalid st hW] at hval
        cases hval
      · have hca := conn_area_found st pat (st.next pat) hx hy hm hfres hinv
        have hlt' : unvisPat ((st.next pat).conn_area st).2 pat < n := by
          have h1 := hca.1
          have h2 := hca.2.1
          omega
        have hW' : ((st.next pat).conn_area st).2.WIDTH ≤ 1024 := by
          rw [hca.2.2.1]; exact hW
        have hH' : ((st.next pat).conn_area st).2.HEIGHT ≤ 1024 := by
          rw [hca.2.2.2.1]; exact hH
        have hinv' : ∀ p ∈ cellsRM ((st.next pat).conn_area st).2.WIDTH
            ((st.next pat).conn_area st).2.HEIGHT,
            ((st.next pat).conn_area st).2.DONE
              (p.2 * ((st.next pat).conn_area st).2.WIDTH + p.1) = true →
            ((st.next pat).conn_area st).2.MAP p.1 p.2 = pat := by
          rw [hca.2.2.1, hca.2.2.2.1, hca.2.2.2.2.1]
          exact hca.2.2.2.2.2
        have := ih ((st.next pat).conn_area st).2 (acc + ((st.next pat).conn_area st).1)
          hW' hH' hinv' hlt'
        rw [this]
        have h2 := hca.2.1
        omega

/-- Claim C4: for every loaded grid within the 1024-cell maximum and every
symbol, after a `refresh` the loop that repeatedly takes `next` and, while
the result is valid, adds its `conn_area` to a running total, terminates
with total exactly `stat`: the connected components found this way partition
all occurrences of the symbol. -/
theorem stat_partition (st : GridState) (pat : Char) (fuel : Nat)
    (hW : st.WIDTH ≤ 1024) (hH : st.HEIGHT ≤ 1024) (hf : st.WIDTH * st.HEIGHT < fuel) :
    sumAreas pat fuel st.refresh 0 = st.stat pat := by
  have hlt : unvisPat st.refresh pat < fuel := by
    have h1 : unvisPat st.refresh pat ≤ (cellsRM st.WIDTH st.HEIGHT).length := by
      rw [unvisPat]
      simp only [refresh_WIDTH, refresh_HEIGHT]
      exact List.countP_le_length _
    rw [cellsRM_length] at h1
    have h2 := Nat.mul_comm st.HEIGHT st.WIDTH
    omega
  have hmain := sumAreas_invariant pat fuel st.refresh 0 hW hH
    (fun p _ hd => Bool.noConfusion hd) hlt
  rw [hmain, unvisPat_refresh, Nat.zero_add]

/-- Witness for C4 at a concrete input: the 2-by-2 diagonal grid, whose two
`A` cells form two components of size one. -/
theorem stat_partition_witness : sumAreas 'A' 5 demo2.refresh 0 = demo2.stat 'A' :=
  stat_partition demo2 'A' 5 (by decide) (by decide) (by decide)

/-! Section: Reading and writing the grid: the canonical stream round trip -/

theorem dropWhile_ws_append (lead rest : List Char) (hws : ∀ ch ∈ lead, wsp ch = true) :
    (lead ++ rest).dropWhile wsp = rest.dropWhile wsp := by
  induction lead with
  | nil => rfl
  | cons a l ih =>
    have h1 := hws a (List.mem_cons_self a l)
    rw [List.cons_append, List.dropWhile_cons, h1]
    simp only [if_true]
    exact ih (fun ch hch => hws ch (List.mem_cons_of_mem a hch))

theorem dropWhile_nonws_cons (ch : Char) (rest : List Char) (h : wsp ch = false) :
    (ch :: rest).dropWhile wsp = ch :: rest := by
  rw [List.dropWhile_cons, h]
  simp

theorem initCell_step (st : GridState) (s : List Char) (ch : Char) (rest : List Char)
    (x y : Nat) (h : s.dropWhile wsp = ch :: rest) :
    initCell (st, s) (x, y) =
      ({ st with MAP := fun a b => if a = x ∧ b = y then ch else st.MAP a b }, rest) := by
  simp only [initCell, h]

theorem init_row (y n : Nat) : ∀ (s : Nat) (st : GridState) (r srest lead : List Char),
    r.length = n → (∀ ch ∈ r, wsp ch = false) → (∀ ch ∈ lead, wsp ch = true) →
    List.foldl initCell (st, lead ++ (r ++ srest)) ((List.range' s n).map fun x => (x, y)) =
      ({ st with MAP := fun a b => if b = y ∧ s ≤ a ∧ a < s + n
          then r.getD (a - s) 'A' else st.MAP a b },
        if n = 0 then lead ++ srest else srest) := by
  induction n with
  | zero =>
    intro s st r srest lead hlen hnws hws
    have hr : r = [] := List.length_eq_zero.mp hlen
    subst hr
    have hmap : (fun a b => if b = y ∧ s ≤ a ∧ a < s + 0
        then List.getD [] (a - s) 'A' else st.MAP a b) = st.MAP := by
      funext a b
      rw [if_neg]
      omega
    show (st, lead ++ ([] ++ srest)) = _
    rw [List.nil_append, hmap]
    rfl
  | succ m ihm =>
    intro s st r srest lead hlen hnws hws
    cases r with
    | nil => simp at hlen
    | cons ch r2 =>
      have hch : wsp ch = false := hnws ch (List.mem_cons_self ch r2)
      have hdrop : (lead ++ ((ch :: r2) ++ srest)).dropWhile wsp = ch :: (r2 ++ srest) := by
        rw [dropWhile_ws_append lead _ hws, List.cons_append]
        exact dropWhile_nonws_cons ch (r2 ++ srest) hch
      rw [List.range'_succ, List.map_cons, List.foldl_cons,
        initCell_step st (lead ++ ((ch :: r2) ++ srest)) ch (r2 ++ srest) s y hdrop]
      have hrec := ihm (s + 1)
        ({ st with MAP := fun a b => if a = s ∧ b = y then ch else st.MAP a b })
        r2 srest [] (by simpa using hlen)
        (fun c hc => hnws c (List.mem_cons_of_mem ch hc))
        (fun c hc => absurd hc (List.not_mem_nil c))
      simp only [List.nil_append] at hrec
      rw [hrec]
      have hleft : (if m = 0 then srest else srest) = srest := ite_self srest
      rw [hleft]
      have hfun : (fun a b => if b = y ∧ s + 1 ≤ a ∧ a < s + 1 + m
          then r2.getD (a - (s + 1)) 'A'
          else if a = s ∧ b = y then ch else st.MAP a b) =
          (fun a b => if b = y ∧ s ≤ a ∧ a < s + (m + 1)
            then (ch :: r2).getD (a - s) 'A' else st.MAP a b) := by
        funext a b
        by_cases h1 : b = y ∧ s + 1 ≤ a ∧ a < s + 1 + m
        · rw [if_pos h1, if_pos ⟨h1.1, by omega, by omega⟩]
          have harith : a - s = (a - (s + 1)) + 1 := by omega
          rw [harith, List.getD_cons_succ]
        · rw [if_neg h1]
          by_cases h2 : a = s ∧ b = y
          · rw [if_pos h2, if_pos ⟨h2.2, by omega, by omega⟩, h2.1, Nat.sub_self,
              List.getD_cons_zero]
          · rw [if_neg h2, if_neg (by omega)]
      rw [hfun, if_neg (by omega)]

theorem init_rows (W : Nat) (hW : 0 < W) (k : Nat) : ∀ (t : Nat) (st : GridState)
    (rows : List (List Char)) (lead : List Char),
    rows.length = k → (∀ r ∈ rows, r.length = W ∧ ∀ ch ∈ r, wsp ch = false) →
    (∀ ch ∈ lead, wsp ch = true) →
    List.foldl initCell (st, lead ++ rowsStream rows)
      ((List.range' t k).flatMap fun y => (List.range' 0 W).map fun x => (x, y)) =
      ({ st with MAP := fun a b => if t ≤ b ∧ b < t + k ∧ a < W
          then (rows.getD (b - t) []).getD a 'A' else st.MAP a b },
        if k = 0 then lead else ['\n']) := by
  induction k with
  | zero =>
    intro t st rows lead hlen hrows hws
    have hr : rows = [] := List.length_eq_zero.mp hlen
    subst hr
    have hmap : (fun a b => if t ≤ b ∧ b < t + 0 ∧ a < W
        then (List.getD ([] : List (List Char)) (b - t) []).getD a 'A'
        else st.MAP a b) = st.MAP := by
      funext a b
      rw [if_neg]
      omega
    show (st, lead ++ rowsStream []) = _
    rw [show rowsStream [] = [] from rfl, List.append_nil, hmap]
    rfl
  | succ m ihm =>
    intro t st rows lead hlen hrows hws
    cases rows with
    | nil => simp at hlen
    | cons r rows2 =>
      have hr := hrows r (List.mem_cons_self r rows2)
      have hstream : lead ++ rowsStream (r :: rows2) =
          lead ++ (r ++ ('\n' :: rowsStream rows2)) := by
        rw [rowsStream, List.flatMap_cons, List.append_assoc]
        rfl
      rw [hstream, List.range'_succ, List.flatMap_cons, List.foldl_append,
        init_row t W 0 st r ('\n' :: rowsStream rows2) lead hr.1 hr.2 hws,
        if_neg (by omega)]
      have hrec := ihm (t + 1)
        ({ st with MAP := fun a b => if b = t ∧ 0 ≤ a ∧ a < 0 + W
            then r.getD (a - 0) 'A' else st.MAP a b })
        rows2 ['\n'] (by simpa using hlen)
        (fun rr hrr => hrows rr (List.mem_cons_of_mem r hrr))
        (fun c hc => by rw [List.mem_singleton.mp hc]; rfl)
      dsimp only at hrec
      rw [show ('\n' :: rowsStream rows2) = ['\n'] ++ rowsStream rows2 from rfl, hrec]
      have hleft : (if m = 0 then ['\n'] else ['\n']) = ['\n'] := ite_self _
      rw [hleft, if_neg (by omega)]
      have hfun : (fun a b => if t + 1 ≤ b ∧ b < t + 1 + m ∧ a < W
          then (rows2.getD (b - (t + 1)) []).getD a 'A'
          else if b = t ∧ 0 ≤ a ∧ a < 0 + W then r.getD (a - 0) 'A' else st.MAP a b) =
          (fun a b => if t ≤ b ∧ b < t + (m + 1) ∧ a < W
            then ((r :: rows2).getD (b - t) []).getD a 'A' else st.MAP a b) := by
        funext a b
        by_cases h1 : t + 1 ≤ b ∧ b < t + 1 + m ∧ a < W
        · rw [if_pos h1, if_pos ⟨by omega, by omega, h1.2.2⟩]
          have harith : b - t = (b - (t + 1)) + 1 := by omega
          rw [harith, List.getD_cons_succ]
        · rw [if_neg h1]
          by_cases h2 : b = t ∧ 0 ≤ a ∧ a < 0 + W
          · rw [if_pos h2, if_pos ⟨by omega, by omega, by omega⟩, h2.1, Nat.sub_self,
              List.getD_cons_zero, Nat.sub_zero]
          · rw [if_neg h2, if_neg (by omega)]
      rw [hfun]

theorem map_range_getD {α : Type} (d : α) (r : List α) :
    (List.range r.length).map (fun x => r.getD x d) = r := by
  induction r with
  | nil => rfl
  | cons a l ih =>
    rw [List.length_cons, List.range_succ_eq_map, List.map_cons, List.map_map]
    have hcomp : ((fun x => List.getD (a :: l) x d) ∘ Nat.succ) = fun x => l.getD x d := by
      funext x
      simp [Function.comp_def]
    rw [hcomp]
    simp only [List.getD_cons_zero]
    rw [ih]

theorem flatMap_congr_mem {α β : Type} (l : List α) (f g : α → List β)
    (h : ∀ a ∈ l, f a = g a) : l.flatMap f = l.flatMap g := by
  induction l with
  | nil => rfl
  | cons a tl ih =>
    rw [List.flatMap_cons, List.flatMap_cons, h a (List.mem_cons_self a tl),
      ih (fun b hb => h b (List.mem_cons_of_mem a hb))]

theorem flatMap_newline {α : Type} (l : List α) :
    (l.flatMap fun _ => ['\n']) = List.replicate l.length '\n' := by
  induction l with
  | nil => rfl
  | cons a tl ih => rw [List.flatMap_cons, ih, List.length_cons, List.replicate_succ]; rfl

/-- Counterexample to C8 as stated: the 1-by-1 grid loaded from the bare
one-token stream "A" — whose width and height match the configured
dimensions — writes back "A\n", not "A", so `output` after `init` is not a
byte-exact inverse on every dimension-matching input. -/
theorem init_output_not_inverse : ¬((demo1.init ['A']).1.output = ['A']) := by decide

/-- Amended C8: on inputs already in the canonical output format — `HEIGHT`
rows of exactly `WIDTH` non-whitespace symbols, each terminated by one
newline — `init` followed immediately by `output` reproduces the input
byte-for-byte. -/
theorem init_output_roundtrip (st : GridState) (rows : List (List Char))
    (hlen : rows.length = st.HEIGHT)
    (hrows : ∀ r ∈ rows, r.length = st.WIDTH ∧ ∀ ch ∈ r, wsp ch = false) :
    (st.init (rowsStream rows)).1.output = rowsStream rows := by
  by_cases hW : st.WIDTH = 0
  · have hcells : cellsRM st.WIDTH st.HEIGHT = [] :=
      List.length_eq_zero.mp (by rw [cellsRM_length, hW]; omega)
    have hinit : (st.init (rowsStream rows)).1 = st := by
      rw [GridState.init, hcells]
      rfl
    rw [hinit, GridState.output]
    have h1 : ((List.range st.HEIGHT).flatMap fun y =>
        ((List.range st.WIDTH).map fun x => st.MAP x y) ++ ['\n']) =
        (List.range st.HEIGHT).flatMap fun _ => ['\n'] := by
      apply flatMap_congr_mem
      intro y _
      rw [hW]
      rfl
    have h2 : rowsStream rows = rows.flatMap fun _ => ['\n'] := by
      apply flatMap_congr_mem
      intro r hr
      have : r = [] := List.length_eq_zero.mp (by rw [(hrows r hr).1, hW])
      rw [this]
      rfl
    rw [h1, h2, flatMap_newline, flatMap_newline, List.length_range, hlen]
  · have hpos : 0 < st.WIDTH := Nat.pos_of_ne_zero hW
    have hinit := init_rows st.WIDTH hpos st.HEIGHT 0 st rows [] hlen hrows
      (fun ch hch => absurd hch (List.not_mem_nil ch))
    rw [List.nil_append] at hinit
    have hcells : cellsRM st.WIDTH st.HEIGHT =
        (List.range' 0 st.HEIGHT).flatMap fun y =>
          (List.range' 0 st.WIDTH).map fun x => (x, y) := by
      rw [cellsRM, List.range_eq_range', List.range_eq_range']
    have hinit2 : (st.init (rowsStream rows)).1 =
        { st with MAP := fun a b => if 0 ≤ b ∧ b < 0 + st.HEIGHT ∧ a < st.WIDTH
            then (rows.getD (b - 0) []).getD a 'A' else st.MAP a b } := by
      rw [GridState.init, hcells, hinit]
    rw [hinit2, GridState.output]
    show ((List.range st.HEIGHT).flatMap fun y =>
        ((List.range st.WIDTH).map fun x =>
          if 0 ≤ y ∧ y < 0 + st.HEIGHT ∧ x < st.WIDTH
          then (rows.getD (y - 0) []).getD x 'A' else st.MAP x y) ++ ['\n']) =
      rowsStream rows
    have hstep : ∀ y ∈ List.range st.HEIGHT,
        (((List.range st.WIDTH).map fun x =>
          if 0 ≤ y ∧ y < 0 + st.HEIGHT ∧ x < st.WIDTH
          then (rows.getD (y - 0) []).getD x 'A' else st.MAP x y) ++ ['\n']) =
        rows.getD y [] ++ ['\n'] := by
      intro y hy
      have hyH : y < st.HEIGHT := List.mem_range.mp hy
      have hmem : rows.getD y [] ∈ rows := by
        rw [List.getD_eq_getElem?_getD, List.getElem?_eq_getElem (by omega), Option.getD_some]
        exact List.getElem_mem _
      have hrlen : (rows.getD y []).length = st.WIDTH := (hrows _ hmem).1
      have hmapeq : ((List.range st.WIDTH).map fun x =>
          if 0 ≤ y ∧ y < 0 + st.HEIGHT ∧ x < st.WIDTH
          then (rows.getD (y - 0) []).getD x 'A' else st.MAP x y) =
          (List.range st.WIDTH).map fun x => (rows.getD y []).getD x 'A' := by
        apply List.map_congr_left
        intro x hx
        have hxW : x < st.WIDTH := List.mem_range.mp hx
        rw [if_pos ⟨by omega, by omega, hxW⟩, Nat.sub_zero]
      rw [hmapeq, ← hrlen, map_range_getD]
    rw [flatMap_congr_mem _ _ _ hstep, rowsStream]
    conv_rhs => rw [← map_range_getD ([] : List Char) rows]
    rw [List.flatMap_map, hlen]

/-- Witness for the amended C8 at a concrete input: a 2-by-2 grid in
canonical format. -/
theorem init_output_roundtrip_witness :
    (demo2.init (rowsStream [['A', 'B'], ['B', 'A']])).1.output =
      rowsStream [['A', 'B'], ['B', 'A']] :=
  init_output_roundtrip demo2 [['A', 'B'], ['B', 'A']] (by decide) (by decide)

/-! Section: Claim C5: neighbor enumeration against the spec's integer reading -/

theorem UPTR_eq : UPTR = 18446744073709551616 := by norm_num [UPTR]

theorem UPTR_int : (UPTR : Int) = 18446744073709551616 := by norm_num [UPTR]

theorem dx_y (g : Grid) (d : Int) : (g.dx d).y = g.y := rfl

theorem dy_x (g : Grid) (d : Int) : (g.dy d).x = g.x := rfl

theorem dx_one_x (g : Grid) (hx : g.x < UPTR) :
    (g.dx 1).x = if g.x = UPTR - 1 then 0 else g.x + 1 := by
  show (((g.x : Int) + 1) % (UPTR : Int)).toNat = _
  rw [UPTR_int, UPTR_eq] at *
  by_cases h : g.x = 18446744073709551616 - 1
  · rw [if_pos h, h]
    omega
  · rw [if_neg h]
    omega

theorem dx_neg_one_x (g : Grid) (hx : g.x < UPTR) :
    (g.dx (-1)).x = if g.x = 0 then UPTR - 1 else g.x - 1 := by
  show (((g.x : Int) + (-1)) % (UPTR : Int)).toNat = _
  rw [UPTR_int, UPTR_eq] at *
  by_cases h : g.x = 0
  · rw [if_pos h, h]
    omega
  · rw [if_neg h]
    omega

theorem dy_one_y (g : Grid) (hy : g.y < UPTR) :
    (g.dy 1).y = if g.y = UPTR - 1 then 0 else g.y + 1 := by
  show (((g.y : Int) + 1) % (UPTR : Int)).toNat = _
  rw [UPTR_int, UPTR_eq] at *
  by_cases h : g.y = 18446744073709551616 - 1
  · rw [if_pos h, h]
    omega
  · rw [if_neg h]
    omega

theorem dy_neg_one_y (g : Grid) (hy : g.y < UPTR) :
    (g.dy (-1)).y = if g.y = 0 then UPTR - 1 else g.y - 1 := by
  show (((g.y : Int) + (-1)) % (UPTR : Int)).toNat = _
  rw [UPTR_int, UPTR_eq] at *
  by_cases h : g.y = 0
  · rw [if_pos h, h]
    omega
  · rw [if_neg h]
    omega

/-- Claim C5: for every machine coordinate, `neighbor` returns exactly the
valid coordinates among `(x,y+1), (x+1,y), (x-1,y), (x,y-1)` — read as the
spec's mathematical integers via the two's-complement interpretation of the
machine words — in exactly that order (down, right, left, up), invalid ones
filtered out and nothing else added. -/
theorem neighbor_matches_spec (st : GridState) (g : Grid)
    (hW : st.WIDTH ≤ 1024) (hH : st.HEIGHT ≤ 1024)
    (hx : g.x < UPTR) (hy : g.y < UPTR) :
    (g.neighbor st).map (fun h => ((h.x : Int), (h.y : Int))) =
      neighborSpec st (toInt64 g.x) (toInt64 g.y) := by
  have p63 : (2 : Nat) ^ 63 = 9223372036854775808 := by norm_num
  have e1 := dy_one_y g hy
  have e2 := dx_one_x g hx
  have e3 := dx_neg_one_x g hx
  have e4 := dy_neg_one_y g hy
  rw [UPTR_eq] at e1 e2 e3 e4 hx hy
  have hBa : (decide (0 ≤ toInt64 g.x) && decide (toInt64 g.x < (st.WIDTH : Int)) &&
      decide (0 ≤ toInt64 g.y + 1) && decide (toInt64 g.y + 1 < (st.HEIGHT : Int))) =
      (g.dy 1).valid st := by
    rw [Bool.eq_iff_iff]
    simp only [Grid.valid, Bool.and_eq_true, decide_eq_true_eq, dy_x, e1, toInt64, p63,
      UPTR_eq, Nat.cast_ofNat]
    split_ifs <;> omega
  have hBb : (decide (0 ≤ toInt64 g.x + 1) && decide (toInt64 g.x + 1 < (st.WIDTH : Int)) &&
      decide (0 ≤ toInt64 g.y) && decide (toInt64 g.y < (st.HEIGHT : Int))) =
      (g.dx 1).valid st := by
    rw [Bool.eq_iff_iff]
    simp only [Grid.valid, Bool.and_eq_true, decide_eq_true_eq, dx_y, e2, toInt64, p63,
      UPTR_eq, Nat.cast_ofNat]
    split_ifs <;> omega
  have hBc : (decide (0 ≤ toInt64 g.x - 1) && decide (toInt64 g.x - 1 < (st.WIDTH : Int)) &&
      decide (0 ≤ toInt64 g.y) && decide (toInt64 g.y < (st.HEIGHT : Int))) =
      (g.dx (-1)).valid st := by
    rw [Bool.eq_iff_iff]
    simp only [Grid.valid, Bool.and_eq_true, decide_eq_true_eq, dx_y, e3, toInt64, p63,
      UPTR_eq, Nat.cast_ofNat]
    split_ifs <;> omega
  have hBd : (decide (0 ≤ toInt64 g.x) && decide (toInt64 g.x < (st.WIDTH : Int)) &&
      decide (0 ≤ toInt64 g.y - 1) && decide (toInt64 g.y - 1 < (st.HEIGHT : Int))) =
      (g.dy (-1)).valid st := by
    rw [Bool.eq_iff_iff]
    simp only [Grid.valid, Bool.and_eq_true, decide_eq_true_eq, dy_x, e4, toInt64, p63,
      UPTR_eq, Nat.cast_ofNat]
    split_ifs <;> omega
  have hVa : (g.dy 1).valid st = true →
      ((g.dy 1).x : Int) = toInt64 g.x ∧ ((g.dy 1).y : Int) = toInt64 g.y + 1 := by
    intro hval
    simp only [Grid.valid, Bool.and_eq_true, decide_eq_true_eq, dy_x, e1] at hval
    simp only [dy_x, e1, toInt64, p63, UPTR_eq, Nat.cast_ofNat]
    split_ifs at hval ⊢ <;> constructor <;> omega
  have hVb : (g.dx 1).valid st = true →
      ((g.dx 1).x : Int) = toInt64 g.x + 1 ∧ ((g.dx 1).y : Int) = toInt64 g.y := by
    intro hval
    simp only [Grid.valid, Bool.and_eq_true, decide_eq_true_eq, dx_y, e2] at hval
    simp only [dx_y, e2, toInt64, p63, UPTR_eq, Nat.cast_ofNat]
    split_ifs at hval ⊢ <;> constructor <;> omega
  have hVc : (g.dx (-1)).valid st = true →
      ((g.dx (-1)).x : Int) = toInt64 g.x - 1 ∧ ((g.dx (-1)).y : Int) = toInt64 g.y := by
    intro hval
    simp only [Grid.valid, Bool.and_eq_true, decide_eq_true_eq, dx_y, e3] at hval
    simp only [dx_y, e3, toInt64, p63, UPTR_eq, Nat.cast_ofNat]
    split_ifs at hval ⊢ <;> constructor <;> omega
  have hVd : (g.dy (-1)).valid st = true →
      ((g.dy (-1)).x : Int) = toInt64 g.x ∧ ((g.dy (-1)).y : Int) = toInt64 g.y - 1 := by
    intro hval
    simp only [Grid.valid, Bool.and_eq_true, decide_eq_true_eq, dy_x, e4] at hval
    simp only [dy_x, e4, toInt64, p63, UPTR_eq, Nat.cast_ofNat]
    split_ifs at hval ⊢ <;> constructor <;> omega
  rw [Grid.neighbor, neighborSpec]
  simp only [List.filter_cons, List.filter_nil]
  rw [hBa, hBb, hBc, hBd]
  cases hPa : (g.dy 1).valid st <;> cases hPb : (g.dx 1).valid st <;>
    cases hPc : (g.dx (-1)).valid st <;> cases hPd : (g.dy (-1)).valid st <;>
      simp [hPa, hPb, hPc, hPd, hVa, hVb, hVc, hVd]

/-- Witness for C5 at a concrete input: the corner cell of the 2-by-2
grid. -/
theorem neighbor_matches_spec_witness :
    ((Grid.mk 0 0).neighbor demo2).map (fun h => ((h.x : Int), (h.y : Int))) =
      neighborSpec demo2 (toInt64 0) (toInt64 0) :=
  neighbor_matches_spec demo2 ⟨0, 0⟩ (by decide) (by decide) (by decide) (by decide)

end ll
